import Mathlib

/-!
# Verification of the urkel authenticated key-value store binding

This development embeds the Rust binding layer of the urkel store
(`src/db.rs`, `src/error.rs`, `src/proof.rs`) together with a model of the
native trie engine it drives, and proves the testable properties stated in
the design document: round-trip of insert/commit/get, proof
correctness, transaction isolation, order-independence of the root,
error-handling behaviour and the empty-root identity.

The binding layer is translated directly from the Rust source.  The native
engine (liburkel) is not part of the source tree; its behaviour is modelled
from the design document: a binary radix trie walked by key bits (most
significant bit first), leaves planted at the first divergence depth
(key-prefix compression), deterministic Merkle combination of child hashes,
an all-zero root for the empty trie, and proofs consisting of the sibling
hashes along the key's path plus terminal-node data.
-/

set_option maxHeartbeats 1000000

namespace Urkel

/-- Bit `i` of a byte string: byte `i / 8`, most significant bit first
within each byte, as the trie walks keys. Out-of-range bytes read as 0. -/
def bitOf (k : List Nat) (i : Nat) : Bool :=
  Nat.testBit (k.getD (i / 8) 0) (7 - i % 8)

/-- A well-formed 32-byte key: exactly 32 bytes, each below 256. -/
def isKey32 (k : List Nat) : Bool :=
  k.length == 32 && k.all (fun b => decide (b < 256))

/-- Modelled from the spec: trie nodes of the native engine (not under the
source tree) — Empty, Leaf (key, value) planted at the divergence depth,
and Internal with two children selected by the next key bit. -/
inductive Node where
  | empty : Node
  | leaf (key value : List Nat) : Node
  | internal (l r : Node) : Node
deriving DecidableEq

/-- The all-zero 32-byte value: the root of the empty trie by convention. -/
def zeros32 : List Nat := List.replicate 32 0

/-- Modelled from the spec: leaf commitment, a deterministic injective
digest of the leaf's key and value (collision-free model of the Hasher). -/
def hashLeaf (k v : List Nat) : List Nat := 1 :: k.length :: (k ++ v)

/-- Modelled from the spec: Merkle combination of the two child hashes. -/
def hashInternal (hl hr : List Nat) : List Nat := 2 :: hl.length :: (hl ++ hr)

/-- Modelled from the spec: node hash; the empty trie hashes to all zeros. -/
def hashNode : Node → List Nat
  | .empty => zeros32
  | .leaf k v => hashLeaf k v
  | .internal l r => hashInternal (hashNode l) (hashNode r)

/-- Modelled from the spec: pure lookup, walking bits from depth `d`;
terminates at Empty (absent) or a Leaf (compare the stored key). -/
def lookupGo : Node → Nat → List Nat → Option (List Nat)
  | .empty, _, _ => none
  | .leaf k' v', _, k => if k' = k then some v' else none
  | .internal l r, d, k => if bitOf k d then lookupGo r (d + 1) k else lookupGo l (d + 1) k

/-- Modelled from the spec: split two colliding leaves, creating internal
nodes along their shared bit path until the keys diverge.  `f` is the
remaining fuel (bits left before the maximal depth 256). -/
def splitLeaf : Nat → Nat → List Nat → List Nat → List Nat → List Nat → Node
  | 0, _, k1, v1, _, _ => .leaf k1 v1
  | f + 1, d, k1, v1, k2, v2 =>
    match bitOf k1 d, bitOf k2 d with
    | false, false => .internal (splitLeaf f (d + 1) k1 v1 k2 v2) .empty
    | true, true => .internal .empty (splitLeaf f (d + 1) k1 v1 k2 v2)
    | false, true => .internal (.leaf k1 v1) (.leaf k2 v2)
    | true, false => .internal (.leaf k2 v2) (.leaf k1 v1)

/-- Modelled from the spec: insert at depth `d`; replaces a leaf with the
same key, splits a leaf with a different key, descends internal nodes. -/
def insertGo : Node → Nat → List Nat → List Nat → Node
  | .empty, _, k, v => .leaf k v
  | .leaf k' v', d, k, v => if k' = k then .leaf k v else splitLeaf (256 - d) d k v k' v'
  | .internal l r, d, k, v =>
    if bitOf k d then .internal l (insertGo r (d + 1) k v)
    else .internal (insertGo l (d + 1) k v) r

/-- Modelled from the spec: canonicalising internal-node constructor used
after a removal (a subtree holding a single leaf collapses upward). -/
def mkInternal : Node → Node → Node
  | .empty, .empty => .empty
  | .leaf k v, .empty => .leaf k v
  | .empty, .leaf k v => .leaf k v
  | l, r => .internal l r

/-- Modelled from the spec: remove the leaf with the given key, collapsing
the path. -/
def removeGo : Node → Nat → List Nat → Node
  | .empty, _, _ => .empty
  | .leaf k' v', _, k => if k' = k then .empty else .leaf k' v'
  | .internal l r, d, k =>
    if bitOf k d then mkInternal l (removeGo r (d + 1) k)
    else mkInternal (removeGo l (d + 1) k) r

/-- Modelled from the spec: the terminal datum of a proof — a dead end
(empty subtree), an inclusion (the terminal leaf's key and value), or a
divergent leaf (exclusion by collision). -/
inductive Terminal where
  | deadend : Terminal
  | incl (key value : List Nat) : Terminal
  | collision (key value : List Nat) : Terminal
deriving DecidableEq

/-- Modelled from the spec: walk the key's path from depth `d`, recording
the sibling hash of every branch not taken, ending at a terminal. -/
def proveGo : Node → Nat → List Nat → List (List Nat) × Terminal
  | .empty, _, _ => ([], .deadend)
  | .leaf k' v', _, k => ([], if k' = k then .incl k' v' else .collision k' v')
  | .internal l r, d, k =>
    if bitOf k d then
      let p := proveGo r (d + 1) k
      (hashNode l :: p.1, p.2)
    else
      let p := proveGo l (d + 1) k
      (hashNode r :: p.1, p.2)

/-- Modelled from the spec: replay the Hasher from the terminal hash `cur`
back up to the root, consuming the sibling list top-down, choosing sides
by the queried key's bits. -/
def recompute : List (List Nat) → List Nat → Nat → List Nat → List Nat
  | [], _, _, cur => cur
  | s :: rest, k, d, cur =>
    let below := recompute rest k (d + 1) cur
    if bitOf k d then hashInternal s below else hashInternal below s

/-- Modelled from the spec: the hash the verifier assigns to a proof's
terminal position.  For an inclusion the verifier independently hashes the
queried key with the proof's value; for a divergent leaf it hashes the
recorded key and value; a dead end hashes to the all-zero value. -/
def termHash (k : List Nat) : Terminal → List Nat
  | .deadend => zeros32
  | .incl _ v => hashLeaf k v
  | .collision k' v' => hashLeaf k' v'

/-- Serialize a terminal to bytes (length-prefixed fields). -/
def serTerm : Terminal → List Nat
  | .deadend => [0]
  | .incl k v => 1 :: k.length :: (k ++ v.length :: v)
  | .collision k v => 2 :: k.length :: (k ++ v.length :: v)

/-- Modelled from the spec: the proof wire format — sibling count, then the
length-prefixed sibling hashes top-down, then the terminal record. -/
def serializeProof (p : List (List Nat) × Terminal) : List Nat :=
  p.1.length :: p.1.foldr (fun s acc => s.length :: (s ++ acc)) (serTerm p.2)

/-- Read one length-prefixed chunk from a byte buffer. -/
def readChunk : List Nat → Option (List Nat × List Nat)
  | [] => none
  | n :: rest => if n ≤ rest.length then some (rest.take n, rest.drop n) else none

/-- Read `n` length-prefixed chunks from a byte buffer. -/
def readChunks : Nat → List Nat → Option (List (List Nat) × List Nat)
  | 0, l => some ([], l)
  | n + 1, l =>
    match readChunk l with
    | none => none
    | some (c, l') =>
      match readChunks n l' with
      | none => none
      | some (cs, l'') => some (c :: cs, l'')

/-- Parse a terminal record; the record must end the buffer. -/
def parseTerm : List Nat → Option Terminal
  | [0] => some .deadend
  | t :: rest =>
    if t = 1 ∨ t = 2 then
      match readChunk rest with
      | none => none
      | some (k, r1) =>
        match r1 with
        | [] => none
        | vl :: r2 =>
          if vl = r2.length then
            some (if t = 1 then .incl k r2 else .collision k r2)
          else none
    else none
  | [] => none

/-- Parse a proof buffer; any malformation yields `none`. -/
def parseProof (l : List Nat) : Option (List (List Nat) × Terminal) :=
  match l with
  | [] => none
  | n :: rest =>
    match readChunks n rest with
    | none => none
    | some (sibs, r) =>
      match parseTerm r with
      | none => none
      | some t => some (sibs, t)

/-- Does the key's bit path agree with the trie path `p`? -/
def onPath (k : List Nat) (p : List Bool) : Bool :=
  (List.range p.length).all (fun i => bitOf k i == p.getD i false)

/-- Modelled from the spec: well-formedness of a trie hanging at path `p` —
leaf keys are 32 bytes and lie on their path; internal nodes sit strictly
above depth 256. -/
def wfB : Node → List Bool → Bool
  | .empty, _ => true
  | .leaf k _, p => isKey32 k && onPath k p && decide (p.length ≤ 256)
  | .internal l r, p =>
    decide (p.length < 256) && wfB l (p ++ [false]) && wfB r (p ++ [true])

/-! ## The native engine's state and entry points

`urkel-sys` exposes the native engine through raw calls that report failure
via a return code plus a thread-local errno.  The engine itself is not part
of the source tree; everything in this section is modelled from the spec.
The errno constants mirror the `urkel_sys::URKEL_*` codes. -/

def URKEL_EHASHMISMATCH : Nat := 1
def URKEL_ESAMEKEY : Nat := 2
def URKEL_ESAMEPATH : Nat := 3
def URKEL_ENEGDEPTH : Nat := 4
def URKEL_EPATHMISMATCH : Nat := 5
def URKEL_ETOODEEP : Nat := 6
def URKEL_EINVAL : Nat := 7
def URKEL_ENOTFOUND : Nat := 8
def URKEL_EITEREND : Nat := 9

/-- Modelled from the spec: a transaction handle — an isolated overlay
anchored at a base root, represented by the in-memory trie it denotes
(base snapshot with all pending mutations applied). -/
structure TxS where
  trie : Node
deriving DecidableEq

/-- Modelled from the spec: the Node Store — the committed snapshots the
store recognizes, addressed by root hash, plus the currently published
root pointer. -/
structure DbS where
  snaps : List (List Nat × Node)
  current : List Nat
deriving DecidableEq

/-- A freshly opened store: it recognizes only the empty trie, and its
published root is the all-zero value. -/
def freshDb : DbS := { snaps := [(zeros32, .empty)], current := zeros32 }

/-- The snapshot the store recognizes for a root, if any. -/
def findSnap (db : DbS) (r : List Nat) : Option Node :=
  (db.snaps.find? (fun p => p.1 == r)).map (fun p => p.2)

/-- Modelled from the spec: the engine reads exactly 32 bytes from the key
pointer (keys are fixed 256-bit values), so a longer slice passed by the
binding is truncated to its first 32 bytes. -/
def sysKey (k : List Nat) : List Nat := k.take 32

/-- Modelled from the spec: `urkel_tx_create` — fails with the not-found
errno (returning a null handle) if the root is not one the store
recognizes. -/
def sysTxCreate (db : DbS) (root : List Nat) : Option TxS × Nat :=
  match findSnap db root with
  | some t => (some ⟨t⟩, 0)
  | none => (none, URKEL_ENOTFOUND)

/-- Modelled from the spec: `urkel_tx_root` — the root the overlay would
produce, computed without publishing anything. -/
def sysTxRoot (tx : TxS) : List Nat := hashNode tx.trie

/-- Modelled from the spec: `urkel_tx_insert` — records the pending set in
the overlay; returns (ret, errno, new tx). -/
def sysTxInsert (tx : TxS) (key value : List Nat) : Nat × Nat × TxS :=
  (1, 0, ⟨insertGo tx.trie 0 (sysKey key) value⟩)

/-- Modelled from the spec: `urkel_tx_remove` — fails with the not-found
errno if the key is absent in the transaction's effective view. -/
def sysTxRemove (tx : TxS) (key : List Nat) : Nat × Nat × TxS :=
  match lookupGo tx.trie 0 (sysKey key) with
  | none => (0, URKEL_ENOTFOUND, tx)
  | some _ => (1, 0, ⟨removeGo tx.trie 0 (sysKey key)⟩)

/-- Modelled from the spec: `urkel_tx_has` — signals absence through the
not-found errno. -/
def sysTxHas (tx : TxS) (key : List Nat) : Nat × Nat :=
  match lookupGo tx.trie 0 (sysKey key) with
  | none => (0, URKEL_ENOTFOUND)
  | some _ => (1, 0)

/-- Modelled from the spec: `urkel_tx_get` — returns the value bytes, or
signals absence through the not-found errno. -/
def sysTxGet (tx : TxS) (key : List Nat) : Nat × Nat × List Nat :=
  match lookupGo tx.trie 0 (sysKey key) with
  | none => (0, URKEL_ENOTFOUND, [])
  | some v => (1, 0, v)

/-- Modelled from the spec: `urkel_tx_inject` — rebinds the transaction to
the snapshot at the target root, discarding the whole overlay; fails with
the not-found errno if the root is unknown. -/
def sysTxInject (db : DbS) (tx : TxS) (root : List Nat) : Nat × Nat × TxS :=
  match findSnap db root with
  | some t => (1, 0, ⟨t⟩)
  | none => (0, URKEL_ENOTFOUND, tx)

/-- Modelled from the spec: `urkel_tx_commit` — atomically publishes the
overlay's root: the snapshot becomes recognized and the published root
pointer advances to it. -/
def sysTxCommit (db : DbS) (tx : TxS) : Nat × Nat × DbS :=
  (1, 0, { snaps := (hashNode tx.trie, tx.trie) :: db.snaps, current := hashNode tx.trie })

/-- Modelled from the spec: `urkel_root` — the currently published root. -/
def sysRoot (db : DbS) : List Nat := db.current

/-- Modelled from the spec: `urkel_prove` — walks the key's path under the
stated root, producing the serialized proof; fails with the not-found
errno if the root is not recognized. -/
def sysProve (db : DbS) (key root : List Nat) : Nat × Nat × List Nat :=
  match findSnap db root with
  | some t => (1, 0, serializeProof (proveGo t 0 (sysKey key)))
  | none => (0, URKEL_ENOTFOUND, [])

/-- Modelled from the spec: `urkel_tx_prove` — proof against the
transaction's current (overlay-adjusted) trie. -/
def sysTxProve (tx : TxS) (key : List Nat) : Nat × Nat × List Nat :=
  (1, 0, serializeProof (proveGo tx.trie 0 (sysKey key)))

/-- Modelled from the spec: `urkel_verify` — pure and stateless: parse the
proof buffer (invalid-proof errno on malformation), reject overlong proofs,
reject an exclusion-by-collision whose recorded key equals the queried key,
then replay the Hasher up to the root and compare with the expected root.
Returns (ret, errno, exists flag, value bytes). -/
def sysVerify (raw key root : List Nat) : Nat × Nat × Nat × List Nat :=
  match parseProof raw with
  | none => (0, URKEL_EINVAL, 0, [])
  | some p =>
    if 256 < p.1.length then (0, URKEL_ETOODEEP, 0, [])
    else
      match p.2 with
      | .deadend =>
        if recompute p.1 key 0 zeros32 = root then (1, 0, 0, [])
        else (0, URKEL_EHASHMISMATCH, 0, [])
      | .collision k' v' =>
        if k' = key then (0, URKEL_ESAMEKEY, 0, [])
        else if recompute p.1 key 0 (hashLeaf k' v') = root then (1, 0, 0, [])
        else (0, URKEL_EHASHMISMATCH, 0, [])
      | .incl _ v =>
        if recompute p.1 key 0 (hashLeaf key v) = root then (1, 0, 1, v)
        else (0, URKEL_EHASHMISMATCH, 0, [])

/-- Modelled from the spec: `urkel_destroy` — removing a store's persisted
data succeeds idempotently, whether or not a store exists at the prefix. -/
def sysDestroy (_storeExists : Bool) : Nat × Nat :=
  (1, 0)

/-! ## The binding layer, translated from the Rust source

`Error` and `VerifyError` are the enums of `src/error.rs` and
`src/proof.rs`; the operations below mirror `src/db.rs` and
`src/proof.rs`, including their branching on return codes and errnos. -/

/-- The public error enum of `src/error.rs`. -/
inductive Error where
  | PathErr : Error
  | ValueTooLarge : Error
  | NotFound : Error
  | Unknown : Error
deriving DecidableEq

/-- The proof-verification error enum of `src/proof.rs`. -/
inductive VerifyError where
  | HashMismatch : VerifyError
  | SameKey : VerifyError
  | SamePath : VerifyError
  | NegativeDepth : VerifyError
  | PathMismatch : VerifyError
  | TooDeep : VerifyError
  | InvalidProof : VerifyError
  | Unknown : VerifyError
deriving DecidableEq

/-- Function `Errno::is_not_found` from `src/error.rs`. -/
def errnoIsNotFound (e : Nat) : Bool := e == URKEL_ENOTFOUND

/-- Function `Errno::into_error` from `src/error.rs`: the not-found errno maps to
`NotFound`; every other code collapses to `Unknown`. -/
def errnoIntoError (e : Nat) : Error :=
  if e = URKEL_ENOTFOUND then .NotFound else .Unknown

/-- Function `VerifyError::from_errno` from `src/proof.rs`. -/
def verifyErrorFromErrno (e : Nat) : VerifyError :=
  if e = URKEL_EHASHMISMATCH then .HashMismatch
  else if e = URKEL_ESAMEKEY then .SameKey
  else if e = URKEL_ESAMEPATH then .SamePath
  else if e = URKEL_ENEGDEPTH then .NegativeDepth
  else if e = URKEL_EPATHMISMATCH then .PathMismatch
  else if e = URKEL_ETOODEEP then .TooDeep
  else if e = URKEL_EINVAL then .InvalidProof
  else .Unknown

/-- Constant `MAX_VALUE_SIZE` from `src/db.rs`. -/
def MAX_VALUE_SIZE : Nat := 1024

/-- Function `Database::new_tx` from `src/db.rs`: create a transaction at the
currently published root; a null handle maps the fetched errno. -/
def dbNewTx (db : DbS) : Except Error TxS :=
  match sysTxCreate db (sysRoot db) with
  | (some tx, _) => .ok tx
  | (none, e) => .error (errnoIntoError e)

/-- Function `Database::new_tx_at` from `src/db.rs`: create a transaction at an
explicit root. -/
def dbNewTxAt (db : DbS) (root : List Nat) : Except Error TxS :=
  match sysTxCreate db root with
  | (some tx, _) => .ok tx
  | (none, e) => .error (errnoIntoError e)

/-- Function `Database::prove` from `src/db.rs`: a zero return maps the fetched
errno; otherwise the proof bytes are returned. -/
def dbProve (db : DbS) (key root : List Nat) : Except Error (List Nat) :=
  match sysProve db key root with
  | (0, e, _) => .error (errnoIntoError e)
  | (_, _, raw) => .ok raw

/-- Function `Database::root` from `src/db.rs`. -/
def dbRoot (db : DbS) : List Nat := sysRoot db

/-- Function `Database::destroy` from `src/db.rs`: a zero return maps the fetched
errno. -/
def dbDestroy (storeExists : Bool) : Except Error Unit :=
  match sysDestroy storeExists with
  | (0, e) => .error (errnoIntoError e)
  | _ => .ok ()

/-- Function `Transaction::root` from `src/db.rs`. -/
def txRoot (tx : TxS) : List Nat := sysTxRoot tx

/-- Function `Transaction::insert` from `src/db.rs`: the value-size guard runs
before the native call, so an oversized value leaves the transaction
untouched; a zero return from the engine maps the fetched errno. -/
def txInsert (tx : TxS) (key value : List Nat) : Except Error Unit × TxS :=
  if MAX_VALUE_SIZE < value.length then (.error .ValueTooLarge, tx)
  else
    match sysTxInsert tx key value with
    | (0, e, tx') => (.error (errnoIntoError e), tx')
    | (_, _, tx') => (.ok (), tx')

/-- Function `Transaction::remove` from `src/db.rs`. -/
def txRemove (tx : TxS) (key : List Nat) : Except Error Unit × TxS :=
  match sysTxRemove tx key with
  | (0, e, tx') => (.error (errnoIntoError e), tx')
  | (_, _, tx') => (.ok (), tx')

/-- Function `Transaction::has` from `src/db.rs`: a return of 1 means present; the
not-found errno is a normal `false`; anything else is an error. -/
def txHas (tx : TxS) (key : List Nat) : Except Error Bool :=
  match sysTxHas tx key with
  | (1, _) => .ok true
  | (_, e) => if errnoIsNotFound e then .ok false else .error (errnoIntoError e)

/-- Function `Transaction::get` from `src/db.rs`: a return of 1 yields the value;
the not-found errno is a normal `none`; anything else is an error. -/
def txGet (tx : TxS) (key : List Nat) : Except Error (Option (List Nat)) :=
  match sysTxGet tx key with
  | (1, _, v) => .ok (some v)
  | (_, e, _) => if errnoIsNotFound e then .ok none else .error (errnoIntoError e)

/-- Function `Transaction::prove` from `src/db.rs`. -/
def txProve (tx : TxS) (key : List Nat) : Except Error (List Nat) :=
  match sysTxProve tx key with
  | (0, e, _) => .error (errnoIntoError e)
  | (_, _, raw) => .ok raw

/-- Function `Transaction::revert` from `src/db.rs`: `urkel_tx_inject` to the
target root; a zero return maps the fetched errno. -/
def txRevert (db : DbS) (tx : TxS) (root : List Nat) : Except Error Unit × TxS :=
  match sysTxInject db tx root with
  | (0, e, tx') => (.error (errnoIntoError e), tx')
  | (_, _, tx') => (.ok (), tx')

/-- Function `Transaction::commit` from `src/db.rs`: a zero return maps the fetched
errno; otherwise the store has advanced to the new root. -/
def txCommit (db : DbS) (tx : TxS) : Except Error Unit × DbS :=
  match sysTxCommit db tx with
  | (0, e, db') => (.error (errnoIntoError e), db')
  | (_, _, db') => (.ok (), db')

/-- Function `Proof::verify` from `src/proof.rs`: a zero return maps the fetched
errno through `VerifyError::from_errno`; otherwise the exists flag selects
`some value` or `none`. -/
def proofVerify (raw key root : List Nat) : Except VerifyError (Option (List Nat)) :=
  match sysVerify raw key root with
  | (0, e, _, _) => .error (verifyErrorFromErrno e)
  | (_, _, ex, v) => .ok (if ex = 1 then some v else none)

/-- The Node Store invariant: every recognized snapshot is addressed by its
own root hash. -/
def storeWF (db : DbS) : Bool :=
  db.snaps.all (fun p => p.1 == hashNode p.2)

/-! ## Lemmas about the trie model -/

theorem lookup_splitLeaf_fst (f : Nat) : ∀ (d : Nat) (k1 v1 k2 v2 : List Nat),
    lookupGo (splitLeaf f d k1 v1 k2 v2) d k1 = some v1 := by
  induction f with
  | zero => intro d k1 v1 k2 v2; simp [splitLeaf, lookupGo]
  | succ f ih =>
    intro d k1 v1 k2 v2
    cases h1 : bitOf k1 d <;> cases h2 : bitOf k2 d <;>
      simp [splitLeaf, lookupGo, h1, h2, ih]

theorem lookup_insertGo_self (t : Node) : ∀ (d : Nat) (k v : List Nat),
    lookupGo (insertGo t d k v) d k = some v := by
  induction t with
  | empty => intro d k v; simp [insertGo, lookupGo]
  | leaf k' v' =>
    intro d k v
    by_cases h : k' = k
    · simp [insertGo, lookupGo, h]
    · simp [insertGo, h, lookup_splitLeaf_fst]
  | internal l r ihl ihr =>
    intro d k v
    cases hb : bitOf k d <;> simp [insertGo, lookupGo, hb, ihl, ihr]

theorem recompute_proveGo (t : Node) : ∀ (d : Nat) (k : List Nat),
    recompute (proveGo t d k).1 k d (termHash k (proveGo t d k).2) = hashNode t := by
  induction t with
  | empty => intro d k; simp [proveGo, recompute, termHash, hashNode]
  | leaf k' v' =>
    intro d k
    by_cases h : k' = k <;>
      simp [proveGo, recompute, termHash, hashNode, h]
  | internal l r ihl ihr =>
    intro d k
    cases hb : bitOf k d
    · simp only [proveGo, hb]
      simp [recompute, hb]
      rw [ihl]
      rfl
    · simp only [proveGo, hb]
      simp [recompute, hb]
      rw [ihr]
      rfl

theorem proveGo_incl_of_lookup (t : Node) : ∀ (d : Nat) (k v : List Nat),
    lookupGo t d k = some v → (proveGo t d k).2 = .incl k v := by
  induction t with
  | empty => intro d k v h; simp [lookupGo] at h
  | leaf k' v' =>
    intro d k v h
    simp only [lookupGo] at h
    by_cases hk : k' = k
    · simp [hk] at h
      simp [proveGo, hk, h]
    · simp [hk] at h
  | internal l r ihl ihr =>
    intro d k v h
    simp only [lookupGo] at h
    cases hb : bitOf k d <;> simp [hb] at h <;> simp [proveGo, hb, ihl, ihr, h]

theorem proveGo_excl_of_lookup (t : Node) : ∀ (d : Nat) (k : List Nat),
    lookupGo t d k = none →
    (proveGo t d k).2 = .deadend ∨
      ∃ k' v', (proveGo t d k).2 = .collision k' v' ∧ k' ≠ k := by
  induction t with
  | empty => intro d k _; left; simp [proveGo]
  | leaf k' v' =>
    intro d k h
    simp only [lookupGo] at h
    by_cases hk : k' = k
    · simp [hk] at h
    · right; exact ⟨k', v', by simp [proveGo, hk], hk⟩
  | internal l r ihl ihr =>
    intro d k h
    simp only [lookupGo] at h
    cases hb : bitOf k d
    · simp [hb] at h
      have h2 : (proveGo (Node.internal l r) d k).2 = (proveGo l (d + 1) k).2 := by
        simp [proveGo, hb]
      rw [h2]
      exact ihl (d + 1) k h
    · simp [hb] at h
      have h2 : (proveGo (Node.internal l r) d k).2 = (proveGo r (d + 1) k).2 := by
        simp [proveGo, hb]
      rw [h2]
      exact ihr (d + 1) k h

/-! ## Serialization round trip -/

theorem readChunk_append (s acc : List Nat) :
    readChunk (s.length :: (s ++ acc)) = some (s, acc) := by
  simp [readChunk]

theorem readChunks_roundtrip (sibs : List (List Nat)) : ∀ (acc : List Nat),
    readChunks sibs.length
      (sibs.foldr (fun s a => s.length :: (s ++ a)) acc) = some (sibs, acc) := by
  induction sibs with
  | nil => intro acc; simp [readChunks]
  | cons s rest ih =>
    intro acc
    simp [readChunks, readChunk_append, ih]

theorem parseTerm_roundtrip (t : Terminal) : parseTerm (serTerm t) = some t := by
  cases t with
  | deadend => rfl
  | incl k v => simp [serTerm, parseTerm, readChunk_append]
  | collision k v => simp [serTerm, parseTerm, readChunk_append]

theorem parseProof_roundtrip (p : List (List Nat) × Terminal) :
    parseProof (serializeProof p) = some p := by
  obtain ⟨sibs, t⟩ := p
  simp [serializeProof, parseProof, readChunks_roundtrip, parseTerm_roundtrip]

/-! ## Injectivity of the modelled digests -/

theorem hashLeaf_inj {k v k' v' : List Nat}
    (h : hashLeaf k v = hashLeaf k' v') : k = k' ∧ v = v' := by
  simp only [hashLeaf, List.cons.injEq] at h
  exact List.append_inj h.2.2 h.2.1

theorem hashInternal_inj {a b a' b' : List Nat}
    (h : hashInternal a b = hashInternal a' b') : a = a' ∧ b = b' := by
  simp only [hashInternal, List.cons.injEq] at h
  exact List.append_inj h.2.2 h.2.1

theorem hashLeaf_ne_zeros (k v : List Nat) : hashLeaf k v ≠ zeros32 := by
  simp [hashLeaf, zeros32, List.replicate]

theorem hashInternal_ne_zeros (a b : List Nat) : hashInternal a b ≠ zeros32 := by
  simp [hashInternal, zeros32, List.replicate]

theorem hashLeaf_ne_hashInternal (k v a b : List Nat) :
    hashLeaf k v ≠ hashInternal a b := by
  simp [hashLeaf, hashInternal]

theorem hashNode_inj : ∀ (a b : Node), hashNode a = hashNode b → a = b := by
  intro a
  induction a with
  | empty =>
    intro b h
    cases b with
    | empty => rfl
    | leaf k v => exact absurd h.symm (hashLeaf_ne_zeros k v)
    | internal l r => exact absurd h.symm (hashInternal_ne_zeros _ _)
  | leaf k v =>
    intro b h
    cases b with
    | empty => exact absurd h (hashLeaf_ne_zeros k v)
    | leaf k' v' =>
      obtain ⟨hk, hv⟩ := hashLeaf_inj (k := k) (v := v) h
      rw [hk, hv]
    | internal l r => exact absurd h (hashLeaf_ne_hashInternal _ _ _ _)
  | internal l r ihl ihr =>
    intro b h
    cases b with
    | empty => exact absurd h (hashInternal_ne_zeros _ _)
    | leaf k' v' => exact absurd h.symm (hashLeaf_ne_hashInternal _ _ _ _)
    | internal l' r' =>
      obtain ⟨hl, hr⟩ := hashInternal_inj h
      rw [ihl l' hl, ihr r' hr]

/-! ## Lemmas about key paths and well-formedness -/

theorem onPath_iff (k : List Nat) (p : List Bool) :
    onPath k p = true ↔ ∀ i, i < p.length → bitOf k i = p.getD i false := by
  simp [onPath, List.all_eq_true, List.mem_range]

theorem onPath_nil (k : List Nat) : onPath k [] = true := rfl

theorem onPath_append (k : List Nat) (p : List Bool) (b : Bool) :
    onPath k (p ++ [b]) = true ↔ onPath k p = true ∧ bitOf k p.length = b := by
  constructor
  · intro h
    rw [onPath_iff] at h
    constructor
    · rw [onPath_iff]
      intro i hi
      have hb := h i (by simp; omega)
      rwa [List.getD_append p [b] false i hi] at hb
    · have hb := h p.length (by simp)
      simpa using hb
  · rintro ⟨h1, h2⟩
    rw [onPath_iff] at h1 ⊢
    intro i hi
    simp only [List.length_append, List.length_cons, List.length_nil] at hi
    rcases Nat.lt_or_ge i p.length with hlt | hge
    · rw [List.getD_append p [b] false i hlt]
      exact h1 i hlt
    · have hieq : i = p.length := by omega
      subst hieq
      simpa using h2

theorem onPath_extend {k : List Nat} {p : List Bool} {b : Bool}
    (h : onPath k p = true) (hb : bitOf k p.length = b) :
    onPath k (p ++ [b]) = true :=
  (onPath_append k p b).mpr ⟨h, hb⟩

theorem onPath_drop_last {k : List Nat} {p : List Bool} {b : Bool}
    (h : onPath k (p ++ [b]) = true) : onPath k p = true :=
  ((onPath_append k p b).mp h).1

theorem onPath_last {k : List Nat} {p : List Bool} {b : Bool}
    (h : onPath k (p ++ [b]) = true) : bitOf k p.length = b :=
  ((onPath_append k p b).mp h).2

theorem lookup_wf_onPath (t : Node) : ∀ (p : List Bool) (k v : List Nat),
    wfB t p = true → lookupGo t p.length k = some v → onPath k p = true := by
  induction t with
  | empty => intro p k v _ h; simp [lookupGo] at h
  | leaf k' v' =>
    intro p k v hwf h
    simp only [lookupGo] at h
    by_cases hk : k' = k
    · subst hk
      simp only [wfB, Bool.and_eq_true] at hwf
      exact hwf.1.2
    · simp [hk] at h
  | internal l r ihl ihr =>
    intro p k v hwf h
    simp only [wfB, Bool.and_eq_true] at hwf
    obtain ⟨⟨_, hwl⟩, hwr⟩ := hwf
    simp only [lookupGo] at h
    cases hb : bitOf k p.length
    · simp [hb] at h
      have hlen : (p ++ [false]).length = p.length + 1 := by simp
      have hop := ihl (p ++ [false]) k v hwl (by rw [hlen]; exact h)
      exact onPath_drop_last hop
    · simp [hb] at h
      have hlen : (p ++ [true]).length = p.length + 1 := by simp
      have hop := ihr (p ++ [true]) k v hwr (by rw [hlen]; exact h)
      exact onPath_drop_last hop

theorem bytes_eq_of_bits_eq {a b : Nat} (ha : a < 256) (hb : b < 256)
    (h : ∀ j, j < 8 → a.testBit j = b.testBit j) : a = b := by
  apply Nat.eq_of_testBit_eq
  intro i
  rcases Nat.lt_or_ge i 8 with hi | hi
  · exact h i hi
  · have hpow : (256 : Nat) ≤ 2 ^ i := by
      calc (256 : Nat) = 2 ^ 8 := by norm_num
        _ ≤ 2 ^ i := Nat.pow_le_pow_right (by norm_num) hi
    rw [Nat.testBit_lt_two_pow (lt_of_lt_of_le ha hpow),
      Nat.testBit_lt_two_pow (lt_of_lt_of_le hb hpow)]

theorem bitOf_byte {k : List Nat} {j n : Nat} (hj : j < k.length) (hn : n < 8) :
    bitOf k (7 - n + 8 * j) = Nat.testBit k[j] n := by
  unfold bitOf
  have h1 : (7 - n + 8 * j) / 8 = j := by
    rw [Nat.add_mul_div_left _ _ (by norm_num : 0 < 8)]
    rw [Nat.div_eq_of_lt (by omega : 7 - n < 8)]
    omega
  have h2 : (7 - n + 8 * j) % 8 = 7 - n := by
    rw [Nat.add_mul_mod_self_left]
    exact Nat.mod_eq_of_lt (by omega)
  rw [h1, h2, List.getD_eq_getElem _ _ hj]
  have h3 : 7 - (7 - n) = n := by omega
  rw [h3]

theorem keys_diverge {k1 k2 : List Nat} (h1 : isKey32 k1 = true)
    (h2 : isKey32 k2 = true) (hne : k1 ≠ k2) :
    ∃ i, i < 256 ∧ bitOf k1 i ≠ bitOf k2 i := by
  by_contra hc
  push_neg at hc
  apply hne
  simp only [isKey32, Bool.and_eq_true, beq_iff_eq, List.all_eq_true,
    decide_eq_true_eq] at h1 h2
  apply List.ext_getElem (by omega)
  intro j hj1 hj2
  have hj32 : j < 32 := by omega
  apply bytes_eq_of_bits_eq (h1.2 _ (List.getElem_mem hj1)) (h2.2 _ (List.getElem_mem hj2))
  intro n hn
  have hb := hc (7 - n + 8 * j) (by omega)
  rwa [bitOf_byte hj1 hn, bitOf_byte hj2 hn] at hb

theorem diverge_ge_path {k1 k2 : List Nat} {p : List Bool}
    (hp1 : onPath k1 p = true) (hp2 : onPath k2 p = true)
    (h1 : isKey32 k1 = true) (h2 : isKey32 k2 = true) (hne : k1 ≠ k2) :
    ∃ i, p.length ≤ i ∧ i < 256 ∧ bitOf k1 i ≠ bitOf k2 i := by
  obtain ⟨i, hi, hd⟩ := keys_diverge h1 h2 hne
  refine ⟨i, ?_, hi, hd⟩
  by_contra hlt
  push_neg at hlt
  rw [onPath_iff] at hp1 hp2
  exact hd (by rw [hp1 i hlt, hp2 i hlt])

theorem proveGo_length (t : Node) : ∀ (p : List Bool) (k : List Nat),
    wfB t p = true → (proveGo t p.length k).1.length ≤ 256 - p.length := by
  induction t with
  | empty => intro p k _; simp [proveGo]
  | leaf k' v' => intro p k _; simp [proveGo]
  | internal l r ihl ihr =>
    intro p k hwf
    simp only [wfB, Bool.and_eq_true, decide_eq_true_eq] at hwf
    obtain ⟨⟨hlen, hwl⟩, hwr⟩ := hwf
    cases hb : bitOf k p.length
    · have ihl' := ihl (p ++ [false]) k hwl
      simp only [List.length_append, List.length_cons, List.length_nil,
        Nat.zero_add] at ihl'
      simp only [proveGo, hb]
      simp only [Bool.false_eq_true, if_false, List.length_cons]
      omega
    · have ihr' := ihr (p ++ [true]) k hwr
      simp only [List.length_append, List.length_cons, List.length_nil,
        Nat.zero_add] at ihr'
      simp only [proveGo, hb, if_true, List.length_cons]
      omega

theorem wf_splitLeaf : ∀ (f : Nat) (p : List Bool) (k1 v1 k2 v2 : List Nat),
    p.length + f = 256 →
    isKey32 k1 = true → isKey32 k2 = true →
    onPath k1 p = true → onPath k2 p = true →
    wfB (splitLeaf f p.length k1 v1 k2 v2) p = true := by
  intro f
  induction f with
  | zero =>
    intro p k1 v1 k2 v2 hf h1 _ hp1 _
    simp [splitLeaf, wfB, h1, hp1]
    omega
  | succ f ih =>
    intro p k1 v1 k2 v2 hf h1 h2 hp1 hp2
    have hlt : p.length < 256 := by omega
    have hlapp : ∀ b : Bool, (p ++ [b]).length = p.length + 1 := by simp
    cases hb1 : bitOf k1 p.length <;> cases hb2 : bitOf k2 p.length <;>
      simp only [splitLeaf, hb1, hb2]
    · -- both left
      have hrec := ih (p ++ [false]) k1 v1 k2 v2 (by simp; omega) h1 h2
        (onPath_extend hp1 hb1) (onPath_extend hp2 hb2)
      rw [hlapp false] at hrec
      simp [wfB, hlt, hrec]
    · -- k1 left, k2 right
      simp [wfB, hlt, h1, h2, onPath_extend hp1 hb1, onPath_extend hp2 hb2]
      omega
    · -- k1 right, k2 left
      simp [wfB, hlt, h1, h2, onPath_extend hp1 hb1, onPath_extend hp2 hb2]
      omega
    · -- both right
      have hrec := ih (p ++ [true]) k1 v1 k2 v2 (by simp; omega) h1 h2
        (onPath_extend hp1 hb1) (onPath_extend hp2 hb2)
      rw [hlapp true] at hrec
      simp [wfB, hlt, hrec]

theorem wf_insertGo (t : Node) : ∀ (p : List Bool) (k v : List Nat),
    wfB t p = true → isKey32 k = true → onPath k p = true → p.length ≤ 256 →
    wfB (insertGo t p.length k v) p = true := by
  induction t with
  | empty =>
    intro p k v _ hk hp hlen
    simp [insertGo, wfB, hk, hp]
    omega
  | leaf k' v' =>
    intro p k v hwf hk hp hlen
    simp only [wfB, Bool.and_eq_true, decide_eq_true_eq] at hwf
    by_cases hke : k' = k
    · simp [insertGo, hke, wfB, hk, hp]
      omega
    · simp only [insertGo, hke, if_false]
      exact wf_splitLeaf (256 - p.length) p k v k' v' (by omega) hk hwf.1.1
        hp hwf.1.2
  | internal l r ihl ihr =>
    intro p k v hwf hk hp _
    simp only [wfB, Bool.and_eq_true, decide_eq_true_eq] at hwf
    obtain ⟨⟨hlen, hwl⟩, hwr⟩ := hwf
    have hlapp : ∀ b : Bool, (p ++ [b]).length = p.length + 1 := by simp
    cases hb : bitOf k p.length
    · have hrec := ihl (p ++ [false]) k v hwl hk (onPath_extend hp hb)
        (by simp; omega)
      rw [hlapp false] at hrec
      simp [insertGo, hb, wfB, hlen, hrec, hwr]
    · have hrec := ihr (p ++ [true]) k v hwr hk (onPath_extend hp hb)
        (by simp; omega)
      rw [hlapp true] at hrec
      simp [insertGo, hb, wfB, hlen, hrec, hwl]

/-! ## Verifying an inclusion proof under the wrong key -/

theorem recompute_ne_of_wrong_key (t : Node) : ∀ (p : List Bool) (k1 k2 v : List Nat),
    wfB t p = true → lookupGo t p.length k1 = some v →
    onPath k1 p = true → onPath k2 p = true → k1 ≠ k2 →
    recompute (proveGo t p.length k1).1 k2 p.length (hashLeaf k2 v) ≠ hashNode t := by
  induction t with
  | empty => intro p k1 k2 v _ h; simp [lookupGo] at h
  | leaf k' v' =>
    intro p k1 k2 v hwf h hp1 hp2 hne heq
    simp only [lookupGo] at h
    by_cases hk : k' = k1
    · subst hk
      simp at h
      subst h
      simp [proveGo, recompute, hashNode] at heq
      exact hne ((hashLeaf_inj heq).1.symm)
    · simp [hk] at h
  | internal l r ihl ihr =>
    intro p k1 k2 v hwf h hp1 hp2 hne heq
    simp only [wfB, Bool.and_eq_true, decide_eq_true_eq] at hwf
    obtain ⟨⟨_, hwl⟩, hwr⟩ := hwf
    simp only [lookupGo] at h
    have hlapp : ∀ b : Bool, (p ++ [b]).length = p.length + 1 := by simp
    cases hb1 : bitOf k1 p.length <;> cases hb2 : bitOf k2 p.length <;>
      simp only [hb1, Bool.false_eq_true, Bool.true_eq_false, if_false, if_true] at h <;>
      simp only [proveGo, recompute, hb1, hb2, Bool.false_eq_true, Bool.true_eq_false,
        if_false, if_true, hashNode] at heq
    · -- both descend left
      obtain ⟨hbelow, _⟩ := hashInternal_inj heq
      refine ihl (p ++ [false]) k1 k2 v hwl ?_ (onPath_extend hp1 hb1)
        (onPath_extend hp2 hb2) hne ?_
      · rw [hlapp false]; exact h
      · rw [hlapp false]; exact hbelow
    · -- k1 left, verifier goes right: forces the two children to coincide
      obtain ⟨hsib, _⟩ := hashInternal_inj heq
      have hrl : r = l := hashNode_inj r l hsib
      have honp := lookup_wf_onPath l (p ++ [true]) k1 v (hrl ▸ hwr)
        (by rw [hlapp true]; exact h)
      have := onPath_last honp
      rw [hb1] at this
      exact Bool.false_ne_true this
    · -- k1 right, verifier goes left: forces the two children to coincide
      obtain ⟨_, hsib⟩ := hashInternal_inj heq
      have hlr : l = r := hashNode_inj l r hsib
      have honp := lookup_wf_onPath r (p ++ [false]) k1 v (hlr ▸ hwl)
        (by rw [hlapp false]; exact h)
      have := onPath_last honp
      rw [hb1] at this
      exact Bool.false_ne_true this.symm
    · -- both descend right
      obtain ⟨_, hbelow⟩ := hashInternal_inj heq
      refine ihr (p ++ [true]) k1 k2 v hwr ?_ (onPath_extend hp1 hb1)
        (onPath_extend hp2 hb2) hne ?_
      · rw [hlapp true]; exact h
      · rw [hlapp true]; exact hbelow

/-! ## Commutativity of insertion (order-independence of the root) -/

theorem splitLeaf_comm : ∀ (f d : Nat) (k1 v1 k2 v2 : List Nat),
    (∃ i, d ≤ i ∧ i < d + f ∧ bitOf k1 i ≠ bitOf k2 i) →
    splitLeaf f d k1 v1 k2 v2 = splitLeaf f d k2 v2 k1 v1 := by
  intro f
  induction f with
  | zero =>
    intro d k1 v1 k2 v2 hdiv
    obtain ⟨i, h1, h2, _⟩ := hdiv
    omega
  | succ f ih =>
    intro d k1 v1 k2 v2 hdiv
    obtain ⟨i, hge, hlt, hd⟩ := hdiv
    cases hb1 : bitOf k1 d <;> cases hb2 : bitOf k2 d <;>
      simp only [splitLeaf, hb1, hb2]
    · have hne : i ≠ d := by
        intro hid
        subst hid
        rw [hb1, hb2] at hd
        exact hd rfl
      rw [ih (d + 1) k1 v1 k2 v2 ⟨i, by omega, by omega, hd⟩]
    · have hne : i ≠ d := by
        intro hid
        subst hid
        rw [hb1, hb2] at hd
        exact hd rfl
      rw [ih (d + 1) k1 v1 k2 v2 ⟨i, by omega, by omega, hd⟩]

/-- Inserting the second key of a split again just replaces its value. -/
theorem insertGo_splitLeaf_second : ∀ (f d : Nat) (ka va kb vb vb' : List Nat),
    (∃ i, d ≤ i ∧ i < d + f ∧ bitOf ka i ≠ bitOf kb i) →
    insertGo (splitLeaf f d ka va kb vb) d kb vb'
      = splitLeaf f d ka va kb vb' := by
  intro f
  induction f with
  | zero =>
    intro d ka va kb vb vb' hdiv
    obtain ⟨i, h1, h2, _⟩ := hdiv
    omega
  | succ f ih =>
    intro d ka va kb vb vb' hdiv
    obtain ⟨i, hge, hlt, hd⟩ := hdiv
    cases hba : bitOf ka d <;> cases hbb : bitOf kb d <;>
      simp only [splitLeaf, hba, hbb]
    · have hne : i ≠ d := by
        intro hid; subst hid; rw [hba, hbb] at hd; exact hd rfl
      simp only [insertGo, hbb, Bool.false_eq_true, if_false]
      rw [ih (d + 1) ka va kb vb vb' ⟨i, by omega, by omega, hd⟩]
    · simp [insertGo, hbb]
    · simp [insertGo, hbb]
    · have hne : i ≠ d := by
        intro hid; subst hid; rw [hba, hbb] at hd; exact hd rfl
      simp only [insertGo, hbb, if_true]
      rw [ih (d + 1) ka va kb vb vb' ⟨i, by omega, by omega, hd⟩]

/-- Inserting a third key into a split is symmetric in the two fresh keys. -/
theorem insertGo_splitLeaf_comm3 : ∀ (f d : Nat) (ka va kb vb kc vc : List Nat),
    d + f = 256 →
    (∃ i, d ≤ i ∧ i < 256 ∧ bitOf ka i ≠ bitOf kb i) →
    (∃ i, d ≤ i ∧ i < 256 ∧ bitOf ka i ≠ bitOf kc i) →
    (∃ i, d ≤ i ∧ i < 256 ∧ bitOf kb i ≠ bitOf kc i) →
    insertGo (splitLeaf f d ka va kc vc) d kb vb
      = insertGo (splitLeaf f d kb vb kc vc) d ka va := by
  intro f
  induction f with
  | zero =>
    intro d ka va kb vb kc vc hf hab _ _
    obtain ⟨i, h1, h2, _⟩ := hab
    omega
  | succ f ih =>
    intro d ka va kb vb kc vc hf hab hac hbc
    have hfe : 256 - (d + 1) = f := by omega
    obtain ⟨iab, hab1, hab2, hab3⟩ := hab
    obtain ⟨iac, hac1, hac2, hac3⟩ := hac
    obtain ⟨ibc, hbc1, hbc2, hbc3⟩ := hbc
    cases hba : bitOf ka d <;> cases hbb : bitOf kb d <;> cases hbc' : bitOf kc d
    · -- F F F: all descend left
      have hne1 : iab ≠ d := by intro h; subst h; rw [hba, hbb] at hab3; exact hab3 rfl
      have hne2 : iac ≠ d := by intro h; subst h; rw [hba, hbc'] at hac3; exact hac3 rfl
      have hne3 : ibc ≠ d := by intro h; subst h; rw [hbb, hbc'] at hbc3; exact hbc3 rfl
      simp only [splitLeaf, hba, hbb, hbc', insertGo, Bool.false_eq_true, if_false]
      rw [ih (d + 1) ka va kb vb kc vc (by omega) ⟨iab, by omega, hab2, hab3⟩
        ⟨iac, by omega, hac2, hac3⟩ ⟨ibc, by omega, hbc2, hbc3⟩]
    · -- F F T: a,b left of c; a and b collide at depth d+1
      have hne1 : iab ≠ d := by intro h; subst h; rw [hba, hbb] at hab3; exact hab3 rfl
      have hnab : ka ≠ kb := by intro h; subst h; exact hab3 rfl
      have hnba : kb ≠ ka := fun h => hnab h.symm
      simp only [splitLeaf, hba, hbb, hbc', insertGo, Bool.false_eq_true, if_false,
        hnab, hnba, if_neg hnab, if_neg hnba]
      rw [hfe, splitLeaf_comm f (d + 1) kb vb ka va
        ⟨iab, by omega, by omega, fun h => hab3 h.symm⟩]
    · -- F T F: a,c left, b right
      have hnca : kc ≠ ka := by intro h; subst h; exact hac3 rfl
      simp only [splitLeaf, hba, hbb, hbc', insertGo, Bool.false_eq_true,
        Bool.true_eq_false, if_false, if_true, if_neg hnca]
      rw [hfe]
    · -- F T T: b,c right, a left
      have hncb : kc ≠ kb := by intro h; subst h; exact hbc3 rfl
      simp only [splitLeaf, hba, hbb, hbc', insertGo, Bool.false_eq_true,
        Bool.true_eq_false, if_false, if_true, if_neg hncb]
      rw [hfe]
    · -- T F F: b,c left, a right
      have hncb : kc ≠ kb := by intro h; subst h; exact hbc3 rfl
      simp only [splitLeaf, hba, hbb, hbc', insertGo, Bool.false_eq_true,
        Bool.true_eq_false, if_false, if_true, if_neg hncb]
      rw [hfe]
    · -- T F T: a,c right, b left
      have hnca : kc ≠ ka := by intro h; subst h; exact hac3 rfl
      simp only [splitLeaf, hba, hbb, hbc', insertGo, Bool.false_eq_true,
        Bool.true_eq_false, if_false, if_true, if_neg hnca]
      rw [hfe]
    · -- T T F: a,b right of c; a and b collide at depth d+1
      have hne1 : iab ≠ d := by intro h; subst h; rw [hba, hbb] at hab3; exact hab3 rfl
      have hnab : ka ≠ kb := by intro h; subst h; exact hab3 rfl
      have hnba : kb ≠ ka := fun h => hnab h.symm
      simp only [splitLeaf, hba, hbb, hbc', insertGo, Bool.true_eq_false, if_true,
        if_neg hnab, if_neg hnba]
      rw [hfe, splitLeaf_comm f (d + 1) kb vb ka va
        ⟨iab, by omega, by omega, fun h => hab3 h.symm⟩]
    · -- T T T: all descend right
      have hne1 : iab ≠ d := by intro h; subst h; rw [hba, hbb] at hab3; exact hab3 rfl
      have hne2 : iac ≠ d := by intro h; subst h; rw [hba, hbc'] at hac3; exact hac3 rfl
      have hne3 : ibc ≠ d := by intro h; subst h; rw [hbb, hbc'] at hbc3; exact hbc3 rfl
      simp only [splitLeaf, hba, hbb, hbc', insertGo, if_true]
      rw [ih (d + 1) ka va kb vb kc vc (by omega) ⟨iab, by omega, hab2, hab3⟩
        ⟨iac, by omega, hac2, hac3⟩ ⟨ibc, by omega, hbc2, hbc3⟩]

theorem insertGo_comm (t : Node) : ∀ (p : List Bool) (k1 v1 k2 v2 : List Nat),
    wfB t p = true → p.length ≤ 256 →
    isKey32 k1 = true → isKey32 k2 = true → k1 ≠ k2 →
    onPath k1 p = true → onPath k2 p = true →
    insertGo (insertGo t p.length k1 v1) p.length k2 v2
      = insertGo (insertGo t p.length k2 v2) p.length k1 v1 := by
  induction t with
  | empty =>
    intro p k1 v1 k2 v2 _ hp256 hk1 hk2 hne hp1 hp2
    have hne' : k2 ≠ k1 := fun h => hne h.symm
    simp only [insertGo, if_neg hne, if_neg hne']
    obtain ⟨i, h1, h2, h3⟩ := diverge_ge_path hp2 hp1 hk2 hk1 hne'
    exact splitLeaf_comm (256 - p.length) p.length k2 v2 k1 v1
      ⟨i, h1, by omega, h3⟩
  | leaf kO vO =>
    intro p k1 v1 k2 v2 hwf hp256 hk1 hk2 hne hp1 hp2
    simp only [wfB, Bool.and_eq_true, decide_eq_true_eq] at hwf
    obtain ⟨⟨hkO, hpO⟩, _⟩ := hwf
    have hne' : k2 ≠ k1 := fun h => hne h.symm
    by_cases h1O : kO = k1
    · subst h1O
      have hne2 : kO ≠ k2 := hne
      simp only [insertGo, if_pos rfl, if_neg hne2, if_neg hne']
      obtain ⟨i, hi1, hi2, hi3⟩ := diverge_ge_path hp2 hp1 hk2 hk1 hne'
      rw [insertGo_splitLeaf_second (256 - p.length) p.length k2 v2 kO vO v1
        ⟨i, hi1, by omega, hi3⟩]
    · by_cases h2O : kO = k2
      · subst h2O
        have hne1 : kO ≠ k1 := fun h => hne' h
        simp only [insertGo, if_pos rfl, if_neg hne1, if_neg hne]
        obtain ⟨i, hi1, hi2, hi3⟩ := diverge_ge_path hp1 hp2 hk1 hk2 hne
        rw [insertGo_splitLeaf_second (256 - p.length) p.length k1 v1 kO vO v2
          ⟨i, hi1, by omega, hi3⟩]
      · simp only [insertGo, if_neg h1O, if_neg h2O]
        obtain ⟨iab, hab1, hab2, hab3⟩ := diverge_ge_path hp1 hp2 hk1 hk2 hne
        obtain ⟨iac, hac1, hac2, hac3⟩ :=
          diverge_ge_path hp1 hpO hk1 hkO (fun h => h1O h.symm)
        obtain ⟨ibc, hbc1, hbc2, hbc3⟩ :=
          diverge_ge_path hp2 hpO hk2 hkO (fun h => h2O h.symm)
        exact insertGo_splitLeaf_comm3 (256 - p.length) p.length k1 v1 k2 v2 kO vO
          (by omega) ⟨iab, hab1, hab2, hab3⟩ ⟨iac, hac1, hac2, hac3⟩
          ⟨ibc, hbc1, hbc2, hbc3⟩
  | internal l r ihl ihr =>
    intro p k1 v1 k2 v2 hwf hp256 hk1 hk2 hne hp1 hp2
    simp only [wfB, Bool.and_eq_true, decide_eq_true_eq] at hwf
    obtain ⟨⟨hlen, hwl⟩, hwr⟩ := hwf
    have hlapp : ∀ b : Bool, (p ++ [b]).length = p.length + 1 := by simp
    cases hb1 : bitOf k1 p.length <;> cases hb2 : bitOf k2 p.length
    · have hrec := ihl (p ++ [false]) k1 v1 k2 v2 hwl (by simp; omega) hk1 hk2 hne
        (onPath_extend hp1 hb1) (onPath_extend hp2 hb2)
      rw [hlapp false] at hrec
      simp [insertGo, hb1, hb2, hrec]
    · simp [insertGo, hb1, hb2]
    · simp [insertGo, hb1, hb2]
    · have hrec := ihr (p ++ [true]) k1 v1 k2 v2 hwr (by simp; omega) hk1 hk2 hne
        (onPath_extend hp1 hb1) (onPath_extend hp2 hb2)
      rw [hlapp true] at hrec
      simp [insertGo, hb1, hb2, hrec]

/-! ## Binding-level helper lemmas -/

theorem sysKey_of_isKey32 {k : List Nat} (h : isKey32 k = true) : sysKey k = k := by
  simp only [isKey32, Bool.and_eq_true, beq_iff_eq] at h
  exact List.take_of_length_le (by omega)

theorem txInsert_small {tx : TxS} {k v : List Nat} (hv : v.length ≤ 1024) :
    txInsert tx k v = (.ok (), ⟨insertGo tx.trie 0 (sysKey k) v⟩) := by
  unfold txInsert
  rw [if_neg (by simp [MAX_VALUE_SIZE]; omega)]
  rfl

theorem txCommit_eq (db : DbS) (tx : TxS) :
    txCommit db tx =
      (.ok (), ⟨(hashNode tx.trie, tx.trie) :: db.snaps, hashNode tx.trie⟩) := rfl

theorem findSnap_cons_self (r : List Nat) (t : Node) (s : List (List Nat × Node))
    (c : List Nat) : findSnap ⟨(r, t) :: s, c⟩ r = some t := by
  simp [findSnap, List.find?]

theorem txHas_of_lookup_some {tx : TxS} {k v : List Nat}
    (h : lookupGo tx.trie 0 (sysKey k) = some v) : txHas tx k = .ok true := by
  simp [txHas, sysTxHas, h]

theorem txGet_of_lookup_some {tx : TxS} {k v : List Nat}
    (h : lookupGo tx.trie 0 (sysKey k) = some v) : txGet tx k = .ok (some v) := by
  simp [txGet, sysTxGet, h]

theorem txHas_of_lookup_none {tx : TxS} {k : List Nat}
    (h : lookupGo tx.trie 0 (sysKey k) = none) : txHas tx k = .ok false := by
  simp [txHas, sysTxHas, h, errnoIsNotFound, URKEL_ENOTFOUND]

theorem txGet_of_lookup_none {tx : TxS} {k : List Nat}
    (h : lookupGo tx.trie 0 (sysKey k) = none) : txGet tx k = .ok none := by
  simp [txGet, sysTxGet, h, errnoIsNotFound, URKEL_ENOTFOUND]

/-! ## Claim theorems -/

/-- C1: for every 32-byte key `k` and value `v` with `|v| ≤ 1024`, after a
Transaction performs `insert(k, v)` and `commit()` succeeds, a fresh
Transaction created against the resulting root has `get(k) = Ok(Some(v))`
and `has(k) = Ok(true)`. -/
theorem insert_commit_roundtrip (db : DbS) (tx : TxS) (k v : List Nat)
    (_hk : isKey32 k = true) (hv : v.length ≤ 1024) :
    (txInsert tx k v).1 = .ok () ∧
    (txCommit db (txInsert tx k v).2).1 = .ok () ∧
    ∃ tx2, dbNewTx (txCommit db (txInsert tx k v).2).2 = .ok tx2 ∧
      txGet tx2 k = .ok (some v) ∧ txHas tx2 k = .ok true := by
  rw [txInsert_small hv]
  refine ⟨rfl, rfl, ⟨⟨insertGo tx.trie 0 (sysKey k) v⟩, ?_, ?_, ?_⟩⟩
  · rw [txCommit_eq]
    simp [dbNewTx, sysRoot, sysTxCreate, findSnap_cons_self]
  · exact txGet_of_lookup_some (lookup_insertGo_self tx.trie 0 (sysKey k) v)
  · exact txHas_of_lookup_some (lookup_insertGo_self tx.trie 0 (sysKey k) v)

theorem insert_commit_roundtrip_witness :
    isKey32 (List.replicate 32 1) = true ∧
    ([104, 105] : List Nat).length ≤ 1024 ∧
    ((txInsert ⟨Node.empty⟩ (List.replicate 32 1) [104, 105]).1 = .ok () ∧
      (txCommit freshDb (txInsert ⟨Node.empty⟩ (List.replicate 32 1) [104, 105]).2).1
        = .ok () ∧
      ∃ tx2,
        dbNewTx
            (txCommit freshDb
              (txInsert ⟨Node.empty⟩ (List.replicate 32 1) [104, 105]).2).2
          = .ok tx2 ∧
        txGet tx2 (List.replicate 32 1) = .ok (some [104, 105]) ∧
        txHas tx2 (List.replicate 32 1) = .ok true) :=
  ⟨by decide, by decide,
    insert_commit_roundtrip freshDb ⟨Node.empty⟩ (List.replicate 32 1) [104, 105]
      (by decide) (by decide)⟩

/-- C3: for every key `k` and every value `v` with `|v| > 1024`,
`Transaction::insert(k, v)` fails with `Error::ValueTooLarge` and the
failing call has no effect: the transaction (overlay and `root()`) is
exactly as before the call, the size check running before any mutation;
durable storage is untouched since `insert` never reaches the store. -/
theorem insert_value_too_large (tx : TxS) (k v : List Nat)
    (hv : 1024 < v.length) :
    txInsert tx k v = (.error .ValueTooLarge, tx) ∧
    txRoot (txInsert tx k v).2 = txRoot tx := by
  have h : txInsert tx k v = (.error .ValueTooLarge, tx) := by
    unfold txInsert
    rw [if_pos (by simp [MAX_VALUE_SIZE]; omega)]
  exact ⟨h, by rw [h]⟩

theorem insert_value_too_large_witness :
    1024 < (List.replicate 1025 (0 : Nat)).length ∧
    (txInsert ⟨Node.empty⟩ (List.replicate 32 1) (List.replicate 1025 0)
        = (.error .ValueTooLarge, ⟨Node.empty⟩) ∧
      txRoot (txInsert ⟨Node.empty⟩ (List.replicate 32 1)
          (List.replicate 1025 0)).2 = txRoot ⟨Node.empty⟩) :=
  ⟨by rw [List.length_replicate]; omega,
    insert_value_too_large ⟨Node.empty⟩ (List.replicate 32 1)
      (List.replicate 1025 0) (by rw [List.length_replicate]; omega)⟩

/-- C6: for every key absent from a Transaction's current effective view,
`remove(k)` fails with `Error::NotFound` leaving the transaction unchanged,
while `has(k)` returns `Ok(false)` and `get(k)` returns `Ok(None)` —
absence is a normal success outcome for has/get and a distinguishable
`NotFound` error for remove. -/
theorem absent_key_outcomes (tx : TxS) (k : List Nat)
    (h : lookupGo tx.trie 0 (sysKey k) = none) :
    txRemove tx k = (.error .NotFound, tx) ∧
    txHas tx k = .ok false ∧ txGet tx k = .ok none := by
  refine ⟨?_, txHas_of_lookup_none h, txGet_of_lookup_none h⟩
  simp [txRemove, sysTxRemove, h, errnoIntoError, URKEL_ENOTFOUND]

theorem absent_key_outcomes_witness :
    lookupGo (TxS.mk Node.empty).trie 0 (sysKey (List.replicate 32 2)) = none ∧
    (txRemove ⟨Node.empty⟩ (List.replicate 32 2)
        = (.error .NotFound, ⟨Node.empty⟩) ∧
      txHas ⟨Node.empty⟩ (List.replicate 32 2) = .ok false ∧
      txGet ⟨Node.empty⟩ (List.replicate 32 2) = .ok none) :=
  ⟨by decide, absent_key_outcomes ⟨Node.empty⟩ (List.replicate 32 2) (by decide)⟩

/-- C9: `Database::destroy(prefix)` succeeds even when no store exists at
the prefix; destroying a non-existent store is an idempotent success, not
an error. -/
theorem destroy_idempotent_success (storeExists : Bool) :
    dbDestroy storeExists = .ok () := rfl

/-- C10: the Transaction key-value operations accept a key byte-slice of
any length and never validate it against the 32-byte `Key` type: for every
value `v` with `|v| ≤ 1024`, `insert` with a key longer than 32 bytes
succeeds, and `has` on that same slice afterwards returns `Ok(true)`. -/
theorem long_key_insert_has (tx : TxS) (k v : List Nat)
    (_hk : 32 < k.length) (hv : v.length ≤ 1024) :
    (txInsert tx k v).1 = .ok () ∧
    txHas (txInsert tx k v).2 k = .ok true := by
  rw [txInsert_small hv]
  exact ⟨rfl, txHas_of_lookup_some (lookup_insertGo_self tx.trie 0 (sysKey k) v)⟩

theorem long_key_insert_has_witness :
    32 < (List.replicate 33 (1 : Nat)).length ∧
    ([7] : List Nat).length ≤ 1024 ∧
    ((txInsert ⟨Node.empty⟩ (List.replicate 33 1) [7]).1 = .ok () ∧
      txHas (txInsert ⟨Node.empty⟩ (List.replicate 33 1) [7]).2
        (List.replicate 33 1) = .ok true) :=
  ⟨by decide, by decide,
    long_key_insert_has ⟨Node.empty⟩ (List.replicate 33 1) [7]
      (by decide) (by decide)⟩

theorem findSnap_wf {db : DbS} {r : List Nat} {t : Node}
    (hwf : storeWF db = true) (h : findSnap db r = some t) : r = hashNode t := by
  simp only [findSnap, Option.map_eq_some'] at h
  obtain ⟨p, hp, hpt⟩ := h
  have hmem := List.mem_of_find?_eq_some hp
  have hbe := List.find?_some hp
  simp only [storeWF, List.all_eq_true] at hwf
  have hph := hwf p hmem
  rw [beq_iff_eq] at hbe hph
  rw [← hbe, hph, hpt]

/-- C7: creating a Transaction at a root the store does not recognize
fails with `Error::NotFound`; `Transaction::revert` to an unknown root
likewise fails with `Error::NotFound` leaving the transaction unchanged,
while a successful revert discards the whole overlay and rebinds the base
to the snapshot at the target root. -/
theorem unknown_root_newtx_revert (db : DbS) (tx : TxS) (r : List Nat) :
    (findSnap db r = none →
      dbNewTxAt db r = .error .NotFound ∧
      txRevert db tx r = (.error .NotFound, tx)) ∧
    (∀ t, findSnap db r = some t → txRevert db tx r = (.ok (), ⟨t⟩)) := by
  constructor
  · intro h
    constructor
    · simp [dbNewTxAt, sysTxCreate, h, errnoIntoError, URKEL_ENOTFOUND]
    · simp [txRevert, sysTxInject, h, errnoIntoError, URKEL_ENOTFOUND]
  · intro t h
    simp [txRevert, sysTxInject, h]

theorem unknown_root_newtx_revert_witness :
    (findSnap freshDb (List.replicate 32 3) = none ∧
      dbNewTxAt freshDb (List.replicate 32 3) = .error .NotFound ∧
      txRevert freshDb ⟨Node.leaf (List.replicate 32 1) [5]⟩ (List.replicate 32 3)
        = (.error .NotFound, ⟨Node.leaf (List.replicate 32 1) [5]⟩)) ∧
    (findSnap freshDb zeros32 = some Node.empty ∧
      txRevert freshDb ⟨Node.leaf (List.replicate 32 1) [5]⟩ zeros32
        = (.ok (), ⟨Node.empty⟩)) := by
  refine ⟨⟨by decide, ?_, ?_⟩, ⟨by decide, ?_⟩⟩
  · exact ((unknown_root_newtx_revert freshDb ⟨Node.leaf (List.replicate 32 1) [5]⟩
      (List.replicate 32 3)).1 (by decide)).1
  · exact ((unknown_root_newtx_revert freshDb ⟨Node.leaf (List.replicate 32 1) [5]⟩
      (List.replicate 32 3)).1 (by decide)).2
  · exact (unknown_root_newtx_revert freshDb ⟨Node.leaf (List.replicate 32 1) [5]⟩
      zeros32).2 Node.empty (by decide)

/-- C8: a freshly opened store's `Database::root()` and a brand-new
Transaction's `root()` are both the all-zero 32-byte value; more
generally, `root()` on a Transaction with an empty overlay returns the
base root unchanged (and, the model being purely functional, has no side
effects). -/
theorem empty_root_identity :
    dbRoot freshDb = zeros32 ∧
    dbNewTx freshDb = .ok ⟨Node.empty⟩ ∧
    txRoot (⟨Node.empty⟩ : TxS) = zeros32 ∧
    (∀ (db : DbS) (r : List Nat) (tx : TxS), storeWF db = true →
      dbNewTxAt db r = .ok tx → txRoot tx = r) := by
  refine ⟨rfl, rfl, rfl, ?_⟩
  intro db r tx hwf htx
  unfold dbNewTxAt sysTxCreate at htx
  cases hfs : findSnap db r with
  | none => rw [hfs] at htx; simp at htx
  | some t =>
    rw [hfs] at htx
    simp only [Except.ok.injEq] at htx
    rw [← htx]
    exact (findSnap_wf hwf hfs).symm

theorem empty_root_identity_witness :
    storeWF freshDb = true ∧
    dbNewTxAt freshDb zeros32 = .ok ⟨Node.empty⟩ ∧
    txRoot (⟨Node.empty⟩ : TxS) = zeros32 :=
  ⟨by decide, rfl,
    empty_root_identity.2.2.2 freshDb zeros32 ⟨Node.empty⟩ (by decide) rfl⟩

/-! ## A two-transaction world for the isolation property -/

/-- An operation driven through the first of two concurrently open
transactions. -/
inductive TxOp where
  | ins (k v : List Nat) : TxOp
  | rem (k : List Nat) : TxOp
  | commit : TxOp

/-- A store with two concurrently open transactions. -/
structure World where
  db : DbS
  tx1 : TxS
  tx2 : TxS

/-- Apply one operation through the first transaction (committing goes to
the shared store). -/
def stepW (w : World) : TxOp → World
  | .ins k v => { w with tx1 := (txInsert w.tx1 k v).2 }
  | .rem k => { w with tx1 := (txRemove w.tx1 k).2 }
  | .commit => { w with db := (txCommit w.db w.tx1).2 }

/-- Run a sequence of operations through the first transaction. -/
def runW (w : World) (ops : List TxOp) : World := ops.foldl stepW w

theorem runW_tx2 (ops : List TxOp) : ∀ (w : World), (runW w ops).tx2 = w.tx2 := by
  induction ops with
  | nil => intro w; rfl
  | cons op rest ih =>
    intro w
    show (runW (stepW w op) rest).tx2 = w.tx2
    rw [ih]
    cases op <;> rfl

/-- C4: for two concurrently open Transactions over the same store, no
insert, remove or commit driven through the first is ever observable via
`has`/`get`/`root` in the second (its observations are untouched by any
such sequence); after the first inserts `k` and commits, the second still
does not see `k`, while a Transaction newly created against the resulting
root does. -/
theorem tx_isolation (w : World) (ops : List TxOp) (k v : List Nat)
    (hv : v.length ≤ 1024)
    (habsent : lookupGo w.tx2.trie 0 (sysKey k) = none) :
    ((runW w ops).tx2 = w.tx2) ∧
    (txHas (runW w [.ins k v, .commit]).tx2 k = .ok false ∧
      txGet (runW w [.ins k v, .commit]).tx2 k = .ok none ∧
      ∃ tx3, dbNewTx (runW w [.ins k v, .commit]).db = .ok tx3 ∧
        txHas tx3 k = .ok true ∧ txGet tx3 k = .ok (some v)) := by
  refine ⟨runW_tx2 ops w, ?_⟩
  have h2 : (runW w [.ins k v, .commit]).tx2 = w.tx2 := runW_tx2 _ w
  rw [h2]
  refine ⟨txHas_of_lookup_none habsent, txGet_of_lookup_none habsent, ?_⟩
  show ∃ tx3,
    dbNewTx (stepW (stepW w (.ins k v)) .commit).db = .ok tx3 ∧
      txHas tx3 k = .ok true ∧ txGet tx3 k = .ok (some v)
  simp only [stepW]
  rw [txInsert_small hv]
  rw [txCommit_eq]
  refine ⟨⟨insertGo w.tx1.trie 0 (sysKey k) v⟩, ?_, ?_, ?_⟩
  · simp [dbNewTx, sysRoot, sysTxCreate, findSnap_cons_self]
  · exact txHas_of_lookup_some (lookup_insertGo_self w.tx1.trie 0 (sysKey k) v)
  · exact txGet_of_lookup_some (lookup_insertGo_self w.tx1.trie 0 (sysKey k) v)

theorem tx_isolation_witness :
    ([5] : List Nat).length ≤ 1024 ∧
    lookupGo (World.mk freshDb ⟨Node.empty⟩ ⟨Node.empty⟩).tx2.trie 0
      (sysKey (List.replicate 32 1)) = none ∧
    (((runW (World.mk freshDb ⟨Node.empty⟩ ⟨Node.empty⟩)
        [.ins (List.replicate 32 9) [2], .commit]).tx2
        = (World.mk freshDb ⟨Node.empty⟩ ⟨Node.empty⟩).tx2) ∧
      (txHas (runW (World.mk freshDb ⟨Node.empty⟩ ⟨Node.empty⟩)
          [.ins (List.replicate 32 1) [5], .commit]).tx2 (List.replicate 32 1)
          = .ok false ∧
        txGet (runW (World.mk freshDb ⟨Node.empty⟩ ⟨Node.empty⟩)
          [.ins (List.replicate 32 1) [5], .commit]).tx2 (List.replicate 32 1)
          = .ok none ∧
        ∃ tx3,
          dbNewTx (runW (World.mk freshDb ⟨Node.empty⟩ ⟨Node.empty⟩)
            [.ins (List.replicate 32 1) [5], .commit]).db = .ok tx3 ∧
          txHas tx3 (List.replicate 32 1) = .ok true ∧
          txGet tx3 (List.replicate 32 1) = .ok (some [5]))) :=
  ⟨by decide, by decide,
    tx_isolation (World.mk freshDb ⟨Node.empty⟩ ⟨Node.empty⟩)
      [.ins (List.replicate 32 9) [2], .commit] (List.replicate 32 1) [5]
      (by decide) (by decide)⟩

/-! ## Order-independence of the root -/

/-- Fold step: apply one `insert` through the binding, keeping the
transaction (failed inserts leave it unchanged). -/
def insStep (tx : TxS) (kv : List Nat × List Nat) : TxS :=
  (txInsert tx kv.1 kv.2).2

/-- Apply a batch of inserts in list order. -/
def applyInserts (tx : TxS) (ps : List (List Nat × List Nat)) : TxS :=
  ps.foldl insStep tx

theorem insStep_eq (tx : TxS) (kv : List Nat × List Nat) :
    insStep tx kv =
      if 1024 < kv.2.length then tx
      else ⟨insertGo tx.trie 0 (sysKey kv.1) kv.2⟩ := by
  by_cases h : 1024 < kv.2.length
  · simp [insStep, txInsert, MAX_VALUE_SIZE, h]
  · simp only [if_neg h, insStep]
    rw [txInsert_small (by omega)]

theorem wf_insStep {tx : TxS} {kv : List Nat × List Nat}
    (hwf : wfB tx.trie [] = true) (hk : isKey32 kv.1 = true) :
    wfB (insStep tx kv).trie [] = true := by
  rw [insStep_eq]
  by_cases h : 1024 < kv.2.length
  · simp [h, hwf]
  · simp only [if_neg h]
    rw [sysKey_of_isKey32 hk]
    exact wf_insertGo tx.trie [] kv.1 kv.2 hwf hk (onPath_nil _) (by simp)

theorem insStep_comm {tx : TxS} {a b : List Nat × List Nat}
    (hwf : wfB tx.trie [] = true) (ha : isKey32 a.1 = true)
    (hb : isKey32 b.1 = true) (hne : a.1 ≠ b.1) :
    insStep (insStep tx a) b = insStep (insStep tx b) a := by
  simp only [insStep_eq]
  by_cases hva : 1024 < a.2.length <;> by_cases hvb : 1024 < b.2.length <;>
    simp [hva, hvb]
  rw [sysKey_of_isKey32 ha, sysKey_of_isKey32 hb]
  exact insertGo_comm tx.trie [] a.1 a.2 b.1 b.2 hwf (by simp)
    ha hb hne (onPath_nil _) (onPath_nil _)

theorem applyInserts_perm {ps1 ps2 : List (List Nat × List Nat)}
    (hperm : ps1.Perm ps2) : ∀ (tx : TxS),
    wfB tx.trie [] = true →
    (∀ q ∈ ps1, isKey32 q.1 = true) →
    ps1.Pairwise (fun a b => a.1 ≠ b.1) →
    applyInserts tx ps1 = applyInserts tx ps2 := by
  induction hperm with
  | nil => intro tx _ _ _; rfl
  | cons x h ih =>
    intro tx hwf hk hp
    show applyInserts (insStep tx x) _ = applyInserts (insStep tx x) _
    exact ih (insStep tx x) (wf_insStep hwf (hk x (by simp)))
      (fun q hq => hk q (by simp [hq])) (List.pairwise_cons.mp hp).2
  | swap x y l =>
    intro tx hwf hk hp
    show applyInserts (insStep (insStep tx y) x) l
      = applyInserts (insStep (insStep tx x) y) l
    rw [insStep_comm hwf (hk y (by simp)) (hk x (by simp))
      ((List.pairwise_cons.mp hp).1 x (by simp))]
  | trans h12 h23 ih12 ih23 =>
    intro tx hwf hk hp
    have hsym : Symmetric (fun (a b : List Nat × List Nat) => a.1 ≠ b.1) :=
      fun _ _ hab heq => hab heq.symm
    rw [ih12 tx hwf hk hp]
    exact ih23 tx hwf (fun q hq => hk q (h12.mem_iff.mpr hq))
      ((h12.pairwise_iff fun a => hsym a).mp hp)

/-- C5: the root is a function of the final key-to-value mapping alone —
for a set of pairs with pairwise-distinct 32-byte keys, inserting them in
any two orders (into Transactions over the same base) yields the same
`root()`; insertion order never affects the resulting root. -/
theorem root_order_independent (t : Node) (ps1 ps2 : List (List Nat × List Nat))
    (hperm : ps1.Perm ps2) (hwf : wfB t [] = true)
    (hk : ∀ q ∈ ps1, isKey32 q.1 = true)
    (hp : ps1.Pairwise (fun a b => a.1 ≠ b.1)) :
    txRoot (applyInserts ⟨t⟩ ps1) = txRoot (applyInserts ⟨t⟩ ps2) := by
  rw [applyInserts_perm hperm ⟨t⟩ hwf hk hp]

theorem root_order_independent_witness :
    ([(List.replicate 32 1, [5]), (List.replicate 32 2, [6])] :
        List (List Nat × List Nat)).Perm
      [(List.replicate 32 2, [6]), (List.replicate 32 1, [5])] ∧
    wfB Node.empty [] = true ∧
    txRoot (applyInserts ⟨Node.empty⟩
        [(List.replicate 32 1, [5]), (List.replicate 32 2, [6])])
      = txRoot (applyInserts ⟨Node.empty⟩
        [(List.replicate 32 2, [6]), (List.replicate 32 1, [5])]) :=
  ⟨by decide, by decide,
    root_order_independent Node.empty
      [(List.replicate 32 1, [5]), (List.replicate 32 2, [6])]
      [(List.replicate 32 2, [6]), (List.replicate 32 1, [5])]
      (by decide) (by decide) (by decide) (by decide)⟩

/-! ## Proof production and verification -/

theorem proveGo_collision_ne (t : Node) : ∀ (d : Nat) (k k' v' : List Nat),
    (proveGo t d k).2 = .collision k' v' → k' ≠ k := by
  induction t with
  | empty => intro d k k' v' h; simp [proveGo] at h
  | leaf kl vl =>
    intro d k k' v' h
    by_cases hk : kl = k
    · simp [proveGo, hk] at h
    · simp [proveGo, hk] at h
      rw [← h.1]
      exact hk
  | internal l r ihl ihr =>
    intro d k k' v' h
    cases hb : bitOf k d
    · have h2 : (proveGo (Node.internal l r) d k).2 = (proveGo l (d + 1) k).2 := by
        simp [proveGo, hb]
      rw [h2] at h
      exact ihl _ _ _ _ h
    · have h2 : (proveGo (Node.internal l r) d k).2 = (proveGo r (d + 1) k).2 := by
        simp [proveGo, hb]
      rw [h2] at h
      exact ihr _ _ _ _ h

/-- C2 (amended): under a recognized root `R` of snapshot `t`, a proof
produced by `prove` for key `k` verifies to `Ok(Some(v))` when `(k, v)` is
present, and to `Ok(None)` when `k` is absent; verifying that proof against
a *different root* fails with `HashMismatch`, as does verifying an
*inclusion* proof against a different key; and a byte buffer that does not
parse as a proof fails with `InvalidProof`.  (An exclusion proof verified
under a different key need not fail — see the counterexample.) -/
theorem proof_verification (db : DbS) (t : Node) (k r : List Nat)
    (hs : findSnap db r = some t) (hr : r = hashNode t)
    (hwf : wfB t [] = true) (hk : isKey32 k = true) :
    dbProve db k r = .ok (serializeProof (proveGo t 0 k)) ∧
    (∀ v, lookupGo t 0 k = some v →
      proofVerify (serializeProof (proveGo t 0 k)) k r = .ok (some v)) ∧
    (lookupGo t 0 k = none →
      proofVerify (serializeProof (proveGo t 0 k)) k r = .ok none) ∧
    (∀ r', r' ≠ r →
      proofVerify (serializeProof (proveGo t 0 k)) k r'
        = .error .HashMismatch) ∧
    (∀ v k2, lookupGo t 0 k = some v → k2 ≠ k →
      proofVerify (serializeProof (proveGo t 0 k)) k2 r
        = .error .HashMismatch) ∧
    (∀ raw, parseProof raw = none →
      proofVerify raw k r = .error .InvalidProof) := by
  have hdeep : ¬ 256 < (proveGo t 0 k).1.length := by
    have hl := proveGo_length t [] k hwf
    simp only [List.length_nil, Nat.sub_zero] at hl
    omega
  refine ⟨?_, ?_, ?_, ?_, ?_, ?_⟩
  · -- prove returns the serialized path proof
    simp only [dbProve, sysProve, hs, sysKey_of_isKey32 hk]
  · -- inclusion
    intro v hv
    have hterm := proveGo_incl_of_lookup t 0 k v hv
    have hpr := recompute_proveGo t 0 k
    rw [hterm] at hpr
    simp only [termHash] at hpr
    simp only [proofVerify, sysVerify, parseProof_roundtrip, hterm,
      if_neg hdeep, hpr, hr]
    simp
  · -- exclusion
    intro hv
    have hpr := recompute_proveGo t 0 k
    rcases proveGo_excl_of_lookup t 0 k hv with hterm | ⟨k', v', hterm, hne⟩
    · rw [hterm] at hpr
      simp only [termHash] at hpr
      simp only [proofVerify, sysVerify, parseProof_roundtrip, hterm,
        if_neg hdeep, hpr, hr]
      simp
    · rw [hterm] at hpr
      simp only [termHash] at hpr
      simp only [proofVerify, sysVerify, parseProof_roundtrip, hterm,
        if_neg hdeep, if_neg hne, hpr, hr]
      simp
  · -- wrong root
    intro r' hr'
    have hpr := recompute_proveGo t 0 k
    have hrr : hashNode t ≠ r' := by rw [← hr]; exact fun h => hr' h.symm
    cases hterm : (proveGo t 0 k).2 with
    | deadend =>
      rw [hterm] at hpr
      simp only [termHash] at hpr
      simp only [proofVerify, sysVerify, parseProof_roundtrip, hterm,
        if_neg hdeep, hpr, if_neg hrr]
      rfl
    | incl ki vi =>
      rw [hterm] at hpr
      simp only [termHash] at hpr
      simp only [proofVerify, sysVerify, parseProof_roundtrip, hterm,
        if_neg hdeep, hpr, if_neg hrr]
      rfl
    | collision kc vc =>
      have hne := proveGo_collision_ne t 0 k kc vc hterm
      rw [hterm] at hpr
      simp only [termHash] at hpr
      simp only [proofVerify, sysVerify, parseProof_roundtrip, hterm,
        if_neg hdeep, if_neg hne, hpr, if_neg hrr]
      rfl
  · -- inclusion proof, wrong key
    intro v k2 hv hk2
    have hterm := proveGo_incl_of_lookup t 0 k v hv
    have hne : recompute (proveGo t 0 k).1 k2 0 (hashLeaf k2 v) ≠ hashNode t :=
      recompute_ne_of_wrong_key t [] k k2 v hwf hv (onPath_nil k) (onPath_nil k2)
        (fun h => hk2 h.symm)
    have hner : recompute (proveGo t 0 k).1 k2 0 (hashLeaf k2 v) ≠ r := by
      rw [hr]; exact hne
    simp only [proofVerify, sysVerify, parseProof_roundtrip, hterm,
      if_neg hdeep, if_neg hner]
    rfl
  · -- unparsable buffer
    intro raw hraw
    simp only [proofVerify, sysVerify, hraw]
    rfl

/-- C2 counterexample: the claim that verifying a valid proof against a
*different key* fails with `HashMismatch` is false — an exclusion proof
produced for one key under the empty root verifies successfully
(`Ok(None)`) under a different key. -/
theorem wrong_key_not_always_mismatch :
    dbProve freshDb (List.replicate 32 1) zeros32
      = .ok (serializeProof (proveGo Node.empty 0 (List.replicate 32 1))) ∧
    proofVerify (serializeProof (proveGo Node.empty 0 (List.replicate 32 1)))
      (List.replicate 32 2) zeros32 = .ok none :=
  ⟨rfl, rfl⟩

theorem proof_verification_witness :
    findSnap
        (DbS.mk [(hashNode (Node.leaf (List.replicate 32 1) [7]),
          Node.leaf (List.replicate 32 1) [7])]
          (hashNode (Node.leaf (List.replicate 32 1) [7])))
        (hashNode (Node.leaf (List.replicate 32 1) [7]))
      = some (Node.leaf (List.replicate 32 1) [7]) ∧
    wfB (Node.leaf (List.replicate 32 1) [7]) [] = true ∧
    isKey32 (List.replicate 32 1) = true ∧
    lookupGo (Node.leaf (List.replicate 32 1) [7]) 0 (List.replicate 32 1)
      = some [7] ∧
    parseProof [98, 111, 103, 117, 115] = none ∧
    (proofVerify
        (serializeProof (proveGo (Node.leaf (List.replicate 32 1) [7]) 0
          (List.replicate 32 1)))
        (List.replicate 32 1) (hashNode (Node.leaf (List.replicate 32 1) [7]))
      = .ok (some [7]) ∧
      proofVerify
        (serializeProof (proveGo (Node.leaf (List.replicate 32 1) [7]) 0
          (List.replicate 32 1)))
        (List.replicate 32 2) (hashNode (Node.leaf (List.replicate 32 1) [7]))
      = .error .HashMismatch ∧
      proofVerify [98, 111, 103, 117, 115] (List.replicate 32 1)
        (hashNode (Node.leaf (List.replicate 32 1) [7]))
      = .error .InvalidProof) := by
  refine ⟨by decide, by decide, by decide, by decide, by decide, ?_, ?_, ?_⟩
  · exact (proof_verification
      (DbS.mk [(hashNode (Node.leaf (List.replicate 32 1) [7]),
        Node.leaf (List.replicate 32 1) [7])]
        (hashNode (Node.leaf (List.replicate 32 1) [7])))
      (Node.leaf (List.replicate 32 1) [7]) (List.replicate 32 1)
      (hashNode (Node.leaf (List.replicate 32 1) [7]))
      (by decide) rfl (by decide) (by decide)).2.1 [7] (by decide)
  · exact (proof_verification
      (DbS.mk [(hashNode (Node.leaf (List.replicate 32 1) [7]),
        Node.leaf (List.replicate 32 1) [7])]
        (hashNode (Node.leaf (List.replicate 32 1) [7])))
      (Node.leaf (List.replicate 32 1) [7]) (List.replicate 32 1)
      (hashNode (Node.leaf (List.replicate 32 1) [7]))
      (by decide) rfl (by decide) (by decide)).2.2.2.2.1 [7]
      (List.replicate 32 2) (by decide) (by decide)
  · exact (proof_verification
      (DbS.mk [(hashNode (Node.leaf (List.replicate 32 1) [7]),
        Node.leaf (List.replicate 32 1) [7])]
        (hashNode (Node.leaf (List.replicate 32 1) [7])))
      (Node.leaf (List.replicate 32 1) [7]) (List.replicate 32 1)
      (hashNode (Node.leaf (List.replicate 32 1) [7]))
      (by decide) rfl (by decide) (by decide)).2.2.2.2.2
      [98, 111, 103, 117, 115] (by decide)

end Urkel
